import Mathlib

/-!
Verification of the CodeRank analyzer (`src/coderank.py`).

The analyzer maps Python files to dotted module identities, resolves the
statements importing modules in each file, builds two weighted directed graphs (the "imports"
graph and its transpose, the "imported-by" graph) over the internal modules
and a configured set of external package names, runs a damped PageRank-style
fixed point over each graph, sums the two per-module scores into a CodeRank,
and projects module ranks onto documentation files via literal whole-token
symbol matching.

Python strings are embedded as `List Char`; Python `None` becomes `Option`;
Python dicts become insertion-ordered association lists with first-match
lookup and in-place update; Python floats (edge weights, damping factor,
scores) become `ℚ`.  Filesystem paths are taken after the
`os.path.abspath` and `os.path.normpath` normalization done by the source,
i.e. the embedded functions receive absolute, normalized POSIX paths.
-/

/-- Python strings, embedded as lists of characters. -/
abbrev Str := List Char

/-- `s.split(sep)` for a one-character separator, with Python semantics:
the result is never empty, and splitting the empty string yields `[""]`. -/
def splitOnChar (sep : Char) : Str → List Str
  | [] => [[]]
  | c :: cs =>
    match splitOnChar sep cs with
    | [] => [[]]
    | s :: rest => if c = sep then [] :: s :: rest else (c :: s) :: rest

/-- `sep.join(parts)` for a one-character separator. -/
def joinSep (sep : Char) : List Str → Str
  | [] => []
  | [s] => s
  | s :: t :: rest => s ++ sep :: joinSep sep (t :: rest)

theorem splitOnChar_ne_nil (sep : Char) (s : Str) : splitOnChar sep s ≠ [] := by
  cases s with
  | nil => simp [splitOnChar]
  | cons c cs =>
    simp only [splitOnChar]
    cases h : splitOnChar sep cs with
    | nil => simp
    | cons a l =>
      by_cases hc : c = sep <;> simp [hc]

/-- Joining the pieces of a split recovers the original string. -/
theorem joinSep_splitOnChar (sep : Char) (s : Str) :
    joinSep sep (splitOnChar sep s) = s := by
  induction s with
  | nil => simp [splitOnChar, joinSep]
  | cons c cs ih =>
    simp only [splitOnChar]
    cases h : splitOnChar sep cs with
    | nil => exact absurd h (splitOnChar_ne_nil sep cs)
    | cons a l =>
      rw [h] at ih
      by_cases hc : c = sep
      · subst hc
        simp only [if_pos rfl, joinSep]
        cases l <;> simpa [joinSep] using ih
      · simp only [if_neg hc]
        cases l <;> simpa [joinSep] using ih

/-- Splitting a separator-free string yields the single-piece list. -/
theorem splitOnChar_of_not_mem {sep : Char} {s : Str} (h : sep ∉ s) :
    splitOnChar sep s = [s] := by
  induction s with
  | nil => simp [splitOnChar]
  | cons c cs ih =>
    simp only [List.mem_cons, not_or] at h
    simp [splitOnChar, ih h.2, Ne.symm h.1, h.1]

/-- Splitting distributes over a separator occurrence. -/
theorem splitOnChar_append (sep : Char) (x y : Str) :
    splitOnChar sep (x ++ sep :: y) = splitOnChar sep x ++ splitOnChar sep y := by
  induction x with
  | nil =>
    simp only [List.nil_append, splitOnChar]
    cases h : splitOnChar sep y with
    | nil => exact absurd h (splitOnChar_ne_nil sep y)
    | cons a l => simp
  | cons c cs ih =>
    simp only [List.cons_append, splitOnChar, List.append_eq]
    rw [ih]
    cases h : splitOnChar sep cs with
    | nil => exact absurd h (splitOnChar_ne_nil sep cs)
    | cons a l =>
      simp only [List.cons_append]
      by_cases hc : c = sep <;> simp [hc]

/-- Joining distributes over list concatenation (both sides nonempty). -/
theorem joinSep_append (sep : Char) (l1 l2 : List Str) (h1 : l1 ≠ []) (h2 : l2 ≠ []) :
    joinSep sep (l1 ++ l2) = joinSep sep l1 ++ sep :: joinSep sep l2 := by
  induction l1 with
  | nil => exact absurd rfl h1
  | cons a as ih =>
    cases as with
    | nil =>
      cases l2 with
      | nil => exact absurd rfl h2
      | cons b bs => simp [joinSep]
    | cons a2 as2 =>
      have ihh := ih (by simp)
      calc joinSep sep (a :: a2 :: as2 ++ l2)
          = a ++ sep :: joinSep sep (a2 :: as2 ++ l2) := by
            simp only [List.cons_append, joinSep, List.append_eq]
        _ = a ++ sep :: (joinSep sep (a2 :: as2) ++ sep :: joinSep sep l2) := by
            rw [ihh]
        _ = (a ++ sep :: joinSep sep (a2 :: as2)) ++ sep :: joinSep sep l2 := by
            simp [List.append_assoc]
        _ = joinSep sep (a :: a2 :: as2) ++ sep :: joinSep sep l2 := by
            simp only [joinSep]

/-- Splitting a join of separator-free pieces recovers the pieces. -/
theorem splitOnChar_joinSep {sep : Char} {l : List Str} (hne : l ≠ [])
    (hfree : ∀ s ∈ l, sep ∉ s) :
    splitOnChar sep (joinSep sep l) = l := by
  induction l with
  | nil => exact absurd rfl hne
  | cons a as ih =>
    cases as with
    | nil => simpa [joinSep] using splitOnChar_of_not_mem (hfree a (by simp))
    | cons b bs =>
      have hstep : joinSep sep (a :: b :: bs) = a ++ sep :: joinSep sep (b :: bs) := by
        simp [joinSep]
      rw [hstep, splitOnChar_append,
        splitOnChar_of_not_mem (hfree a (by simp)),
        ih (by simp) (fun s hs => hfree s (by simp [hs]))]
      simp

-- Sanity checks for the Python split/join semantics.
example : splitOnChar '.' "a.b".data = ["a".data, "b".data] := by decide
example : splitOnChar '.' [] = [[]] := by decide
example : joinSep '.' ["a".data, "b".data, "c".data] = "a.b.c".data := by decide

/-- Python truthiness of an optional string: `None` and `""` are falsy. -/
def optTruthy : Option Str → Bool
  | none => false
  | some s => !s.isEmpty

/-- `resolve_relative_import(current_module_fqn, level, module_in_from_statement)`
from `src/coderank.py` lines 57-103.  Resolves a relative import to a fully
qualified name; `none` plays the role of the Python value `None`.

The outer match mirrors the Python truthiness test `if not current_module_fqn:`.
In Python, `path_parts[:-level]` equals `[]` when `level == 0` (since `-0 == 0`),
and drops the last `level` elements otherwise; both cases are mirrored below
(the analyzer only calls this with `level ≥ 1`). -/
def resolve_relative_import (current_module_fqn : Option Str) (level : Nat)
    (module_in_from_statement : Option Str) : Option Str :=
  match optTruthy current_module_fqn with
  | false =>
    -- Cannot resolve relative if the current module FQN is unknown.
    if 0 < level ∧ optTruthy module_in_from_statement then module_in_from_statement
    else none
  | true =>
    let path_parts := splitOnChar '.' (current_module_fqn.getD [])
    if path_parts.length < level then
      -- Trying to go above the top-level package.
      none
    else
      let base_module_parts :=
        if level = 0 then [] else path_parts.take (path_parts.length - level)
      match optTruthy module_in_from_statement with
      | true =>
        some (joinSep '.'
          (base_module_parts ++ splitOnChar '.' (module_in_from_statement.getD [])))
      | false =>
        if base_module_parts = [] then none
        else some (joinSep '.' base_module_parts)

-- Sanity checks against the doc-comment examples of the source.
example : resolve_relative_import (some "pkg.sub.mod".data) 1 (some "sibling".data)
    = some "pkg.sub.sibling".data := by decide
example : resolve_relative_import (some "pkg.sub.mod".data) 2 (some "foo".data)
    = some "pkg.foo".data := by decide
example : resolve_relative_import (some "pkg.sub.mod".data) 1 none
    = some "pkg.sub".data := by decide
example : resolve_relative_import (some "mod".data) 1 none = none := by decide
example : resolve_relative_import (some "a.b.c".data) 4 (some "x".data) = none := by decide
example : resolve_relative_import none 1 (some "foo".data) = some "foo".data := by decide
example : resolve_relative_import none 2 (some "foo".data) = some "foo".data := by decide
example : resolve_relative_import none 1 none = none := by decide

theorem split3 {a b c : Str} (ha : '.' ∉ a) (hb : '.' ∉ b) (hc : '.' ∉ c) :
    splitOnChar '.' (a ++ '.' :: (b ++ '.' :: c)) = [a, b, c] := by
  rw [splitOnChar_append, splitOnChar_append, splitOnChar_of_not_mem ha,
    splitOnChar_of_not_mem hb, splitOnChar_of_not_mem hc]
  rfl

/-- C3: for an importing module with dotted identity `a.b.c`, a
relative import at level 1 naming `sibling` resolves to `a.b.sibling`, at level 2 to
`a.sibling` (the level-k base drops the last k segments of the importer
identity); whenever the level exceeds the number of dotted segments of
the importer identity, the import yields no dependency. -/
theorem claim_C3_relative_resolution (a b c s fqn : Str) (lvl : Nat) (name : Option Str)
    (ha1 : a ≠ []) (ha2 : '.' ∉ a) (hb1 : b ≠ []) (hb2 : '.' ∉ b)
    (hc1 : c ≠ []) (hc2 : '.' ∉ c) (hs : s ≠ [])
    (hf : fqn ≠ []) (hlvl : (splitOnChar '.' fqn).length < lvl) :
    resolve_relative_import (some (a ++ '.' :: (b ++ '.' :: c))) 1 (some s)
        = some (a ++ '.' :: (b ++ '.' :: s))
    ∧ resolve_relative_import (some (a ++ '.' :: (b ++ '.' :: c))) 2 (some s)
        = some (a ++ '.' :: s)
    ∧ resolve_relative_import (some fqn) lvl name = none := by
  have hX : optTruthy (some (a ++ '.' :: (b ++ '.' :: c))) = true := by
    cases a <;> simp [optTruthy, List.isEmpty]
  have hS : optTruthy (some s) = true := by
    cases s with
    | nil => exact absurd rfl hs
    | cons u v => simp [optTruthy, List.isEmpty]
  have hF : optTruthy (some fqn) = true := by
    cases fqn with
    | nil => exact absurd rfl hf
    | cons u v => simp [optTruthy, List.isEmpty]
  have hjoin2 : ∀ t : Str, t ≠ [] →
      joinSep '.' (a :: b :: splitOnChar '.' t) = a ++ '.' :: (b ++ '.' :: t) := by
    intro t ht
    have h0 := joinSep_append '.' [a, b] (splitOnChar '.' t) (by simp)
      (splitOnChar_ne_nil '.' t)
    rw [joinSep_splitOnChar] at h0
    simpa [joinSep] using h0
  have hjoin1 : ∀ t : Str, t ≠ [] →
      joinSep '.' (a :: splitOnChar '.' t) = a ++ '.' :: t := by
    intro t ht
    have h0 := joinSep_append '.' [a] (splitOnChar '.' t) (by simp)
      (splitOnChar_ne_nil '.' t)
    rw [joinSep_splitOnChar] at h0
    simpa [joinSep] using h0
  refine ⟨?_, ?_, ?_⟩
  · rw [resolve_relative_import, hX]
    simp only [Option.getD_some, split3 ha2 hb2 hc2, hS]
    simp [hjoin2 s hs]
  · rw [resolve_relative_import, hX]
    simp only [Option.getD_some, split3 ha2 hb2 hc2, hS]
    simp [hjoin1 s hs]
  · rw [resolve_relative_import, hF]
    simp only [Option.getD_some]
    simp [hlvl]

/-- Witness for C3 at `a.b.c`, sibling `sib`, and an over-deep level 4. -/
theorem claim_C3_relative_resolution_witness :
    resolve_relative_import (some "a.b.c".data) 1 (some "sib".data)
        = some "a.b.sib".data
    ∧ resolve_relative_import (some "a.b.c".data) 2 (some "sib".data)
        = some "a.sib".data
    ∧ resolve_relative_import (some "a.b.c".data) 4 (some "x".data) = none := by
  have h := claim_C3_relative_resolution "a".data "b".data "c".data "sib".data
    "a.b.c".data 4 (some "x".data) (by decide) (by decide) (by decide) (by decide)
    (by decide) (by decide) (by decide) (by decide) (by decide)
  exact ⟨h.1, h.2.1, h.2.2⟩

/-- C7 counterexample: in a file whose own module identity is the sentinel,
a relative import naming a module at level 2 is NOT dropped; it resolves to
the named module itself (`from ..foo import X` yields dependency `foo`). -/
theorem claim_C7_counterexample :
    resolve_relative_import none 2 (some "foo".data) = some "foo".data
    ∧ resolve_relative_import none 2 (some "foo".data) ≠ none := by
  refine ⟨by decide, by decide⟩

/-- C7 (amended): when the module identity of the importing file is the sentinel,
a relative import that explicitly names a module resolves to the named module
itself at EVERY level ≥ 1 (not only level 1), and a level-only
relative import of such a file is dropped, yielding no dependency. -/
theorem claim_C7_sentinel_resolution (cur : Option Str) (lvl : Nat) (name : Str)
    (hcur : optTruthy cur = false) (hl : 0 < lvl) (hn : name ≠ []) :
    resolve_relative_import cur lvl (some name) = some name
    ∧ resolve_relative_import cur lvl none = none
    ∧ resolve_relative_import cur 0 (some name) = none := by
  have hN : optTruthy (some name) = true := by
    cases name with
    | nil => exact absurd rfl hn
    | cons u v => simp [optTruthy, List.isEmpty]
  refine ⟨?_, ?_, ?_⟩
  · rw [resolve_relative_import, hcur]
    simp [hl, hN]
  · rw [resolve_relative_import, hcur]
    simp [optTruthy]
  · rw [resolve_relative_import, hcur]
    simp

/-- Witness for the amended C7 at level 3 with name `foo`. -/
theorem claim_C7_sentinel_resolution_witness :
    resolve_relative_import none 3 (some "foo".data) = some "foo".data
    ∧ resolve_relative_import none 3 none = none
    ∧ resolve_relative_import none 0 (some "foo".data) = none := by
  exact claim_C7_sentinel_resolution none 3 "foo".data (by decide) (by decide)
    (by decide)

/-- Index of the last occurrence of a character (Python `str.rfind`, with
`none` for the Python result `-1`). -/
def rfindIdx (c : Char) : Str → Option Nat
  | [] => none
  | x :: xs =>
    match rfindIdx c xs with
    | some k => some (k + 1)
    | none => if x = c then some 0 else none

/-- The root part of `os.path.splitext` (POSIX `sep = '/'`, `extsep = '.'`),
after `genericpath._splitext`: split at the last dot, except when that dot
lies before the last separator or the basename consists solely of leading
dots up to it. -/
def splitextRoot (p : Str) : Str :=
  match rfindIdx '.' p with
  | none => p
  | some dotIndex =>
    let filenameIndex :=
      match rfindIdx '/' p with
      | none => 0
      | some sepIndex => sepIndex + 1
    -- The Python test `dotIndex > sepIndex` with `-1` for a missing separator is
    -- `filenameIndex ≤ dotIndex` here.
    if filenameIndex ≤ dotIndex then
      if (List.range (dotIndex - filenameIndex)).any
          (fun k => p.getD (filenameIndex + k) '.' != '.') then
        p.take dotIndex
      else p
    else p

/-- Length of the common prefix of two segment lists (`os.path.commonprefix`
applied to a two-element list, element-wise). -/
def commonPrefixLen : List Str → List Str → Nat
  | a :: as, b :: bs => if a = b then commonPrefixLen as bs + 1 else 0
  | _, _ => 0

theorem commonPrefixLen_self_append (l m : List Str) :
    commonPrefixLen l (l ++ m) = l.length := by
  induction l with
  | nil => cases m <;> simp [commonPrefixLen]
  | cons a as ih => simp [commonPrefixLen, ih]

/-- The nonempty `/`-separated segments of a path
(`[x for x in p.split(sep) if x]` in `posixpath.relpath`). -/
def pathSegments (p : Str) : List Str :=
  (splitOnChar '/' p).filter (fun s => !s.isEmpty)

/-- `posixpath.relpath(path, start)` for absolute, normalized inputs:
climb with `..` segments past the uncommon part of `start`, then descend
into the uncommon part of `path`. -/
def relpathPosix (path start : Str) : Str :=
  let path_list := pathSegments path
  let start_list := pathSegments start
  let i := commonPrefixLen start_list path_list
  let rel_list :=
    List.replicate (start_list.length - i) "..".data ++ path_list.drop i
  if rel_list = [] then ".".data else joinSep '/' rel_list

/-- `path_to_module_fqn(file_path, abs_repo_path)` from `src/coderank.py`
lines 12-54: convert an absolute file path into a dotted module name, or
`none` (the unresolvable sentinel).  Inputs are taken after the
`os.path.normpath(os.path.abspath(...))` normalization done by the source, i.e. absolute
normalized POSIX paths.  The unused variable `repo_path_for_rel` of the source
(lines 28-30) is dead code and not modelled. -/
def path_to_module_fqn (file_path abs_repo_path : Str) : Option Str :=
  if List.isPrefixOf abs_repo_path file_path = false then none
  else
    let relative_path := relpathPosix file_path abs_repo_path
    let module_path_no_ext := splitextRoot relative_path
    let parts := splitOnChar '/' module_path_no_ext
    -- `splitOnChar` never returns `[]`, mirroring the Python `split`; the
    -- check `if not parts: return None` of the source is the `parts = []` guard below.
    if parts.getLast? = some "__init__".data then
      let parts2 := parts.dropLast
      if parts2 = [] then none else some (joinSep '.' parts2)
    else
      if parts = [] then none else some (joinSep '.' parts)

-- Sanity checks against the doc-comment examples of the source, and edge cases.
example : path_to_module_fqn "/repo/pkg/mod.py".data "/repo".data
    = some "pkg.mod".data := by decide
example : path_to_module_fqn "/repo/pkg/__init__.py".data "/repo".data
    = some "pkg".data := by decide
example : path_to_module_fqn "/repo/__init__.py".data "/repo".data = none := by decide
example : path_to_module_fqn "/other/x.py".data "/repo".data = none := by decide
example : path_to_module_fqn "/r/pkg/sub.py".data "/r".data
    = some "pkg.sub".data := by decide
example : path_to_module_fqn "/r/pkg/sub/__init__.py".data "/r".data
    = some "pkg.sub".data := by decide
example : path_to_module_fqn "/repofoo/mod.py".data "/repo".data
    = some "...repofoo.mod".data := by decide

theorem rfindIdx_of_not_mem {c : Char} {s : Str} (h : c ∉ s) : rfindIdx c s = none := by
  induction s with
  | nil => rfl
  | cons x xs ih =>
    simp only [List.mem_cons, not_or] at h
    simp [rfindIdx, ih h.2, Ne.symm h.1]

theorem rfindIdx_append_of_some {c : Char} {y : Str} {k : Nat}
    (h : rfindIdx c y = some k) (x : Str) :
    rfindIdx c (x ++ y) = some (x.length + k) := by
  induction x with
  | nil => simpa using h
  | cons a as ih =>
    simp only [List.cons_append, rfindIdx, List.append_eq]
    rw [ih]
    simp only [Option.some.injEq, List.length_cons]
    omega

theorem rfindIdx_append_of_none {c : Char} {y : Str}
    (h : rfindIdx c y = none) (x : Str) :
    rfindIdx c (x ++ y) = rfindIdx c x := by
  induction x with
  | nil => simpa using h
  | cons a as ih =>
    simp only [List.cons_append, rfindIdx, List.append_eq]
    rw [ih]

theorem getD_append_length_add (x y : Str) (n : Nat) (d : Char) :
    (x ++ y).getD (x.length + n) d = y.getD n d := by
  induction x with
  | nil => simp
  | cons a as ih => simpa [Nat.succ_add] using ih

theorem isPrefixOf_self_append (l x : Str) : List.isPrefixOf l (l ++ x) = true := by
  induction l with
  | nil => simp [List.isPrefixOf]
  | cons a as ih => simp [List.isPrefixOf, ih]

/-- For a file properly under the root (`file = root ++ "/" ++ rest` with no
empty segments in `rest`), the POSIX relative path is just `rest`. -/
theorem relpathPosix_append (r rest : Str) (hne : rest ≠ [])
    (hseg : [] ∉ splitOnChar '/' rest) :
    relpathPosix (r ++ '/' :: rest) r = rest := by
  have hfilter :
      (splitOnChar '/' rest).filter (fun s => !s.isEmpty) = splitOnChar '/' rest := by
    apply List.filter_eq_self.mpr
    intro s hsmem
    cases s with
    | nil => exact absurd hsmem hseg
    | cons a l => rfl
  have hsplitf : pathSegments (r ++ '/' :: rest)
      = pathSegments r ++ splitOnChar '/' rest := by
    simp only [pathSegments, splitOnChar_append, List.filter_append, hfilter]
  simp only [relpathPosix, hsplitf, commonPrefixLen_self_append, Nat.sub_self,
    List.replicate, List.nil_append, List.drop_left]
  rw [if_neg (splitOnChar_ne_nil '/' rest)]
  exact joinSep_splitOnChar '/' rest

/-- Definition following the wording of claim C5 (spec section 4.1): return the
sentinel when the file does not lie under the root (here: the root is not a
string prefix); otherwise take the root-relative path by stripping the root
and the separator, strip the extension, split on the separator, drop a final
`__init__` segment, return the sentinel if nothing remains, else join the
segments with dots. -/
def path_to_module_fqn_spec (file_path abs_repo_path : Str) : Option Str :=
  if List.isPrefixOf abs_repo_path file_path = false then none
  else
    let relative_path := file_path.drop (abs_repo_path.length + 1)
    let module_path_no_ext := splitextRoot relative_path
    let parts := splitOnChar '/' module_path_no_ext
    if parts.getLast? = some "__init__".data then
      let parts2 := parts.dropLast
      if parts2 = [] then none else some (joinSep '.' parts2)
    else
      if parts = [] then none else some (joinSep '.' parts)

/-- C5 counterexample: the file `/repofoo/mod.py` lies outside the root
`/repo` (the root plus separator is not a prefix of it, nor is it the root
itself), yet resolution does NOT return the sentinel: the string-prefix test
passes and the result is an identity containing parent-directory segments. -/
theorem claim_C5_counterexample :
    path_to_module_fqn "/repofoo/mod.py".data "/repo".data
        = some "...repofoo.mod".data
    ∧ List.isPrefixOf "/repo/".data "/repofoo/mod.py".data = false
    ∧ "/repofoo/mod.py".data ≠ "/repo".data := by
  refine ⟨by decide, by decide, by decide⟩

/-- C5 (amended): module identity resolution returns the sentinel whenever
the root is not a plain string prefix of the file path (which covers most,
but not all, files outside the root); and for a file properly under the root
it strips the extension, splits the root-relative path into segments, drops a
final `__init__` segment, returns the sentinel if no segments remain, and
otherwise joins the remaining segments with dots — i.e. it agrees with the
spec-worded definition `path_to_module_fqn_spec`. -/
theorem claim_C5_identity_resolution (f r : Str)
    (h : List.isPrefixOf r f = false
      ∨ ∃ rest, f = r ++ '/' :: rest ∧ rest ≠ [] ∧ [] ∉ splitOnChar '/' rest) :
    path_to_module_fqn f r = path_to_module_fqn_spec f r := by
  rcases h with h | ⟨rest, rfl, hne, hseg⟩
  · rw [path_to_module_fqn, path_to_module_fqn_spec, if_pos h, if_pos h]
  · have hpre : List.isPrefixOf r (r ++ '/' :: rest) = true :=
      isPrefixOf_self_append r ('/' :: rest)
    have hdrop : (r ++ '/' :: rest).drop (r.length + 1) = rest := by
      have : r ++ '/' :: rest = (r ++ ['/']) ++ rest := by simp
      rw [this, show r.length + 1 = (r ++ ['/']).length by simp, List.drop_left]
    rw [path_to_module_fqn, path_to_module_fqn_spec]
    simp only [hpre, relpathPosix_append r rest hne hseg, hdrop,
      Bool.true_eq_false, if_false]

theorem not_mem_joinSep {c sep : Char} :
    ∀ {l : List Str}, c ≠ sep → (∀ s ∈ l, c ∉ s) → c ∉ joinSep sep l := by
  intro l
  induction l with
  | nil => intro _ _; simp [joinSep]
  | cons a as ih =>
    intro hc h
    cases as with
    | nil => simpa [joinSep] using h a (by simp)
    | cons b bs =>
      intro hmem
      rw [show joinSep sep (a :: b :: bs) = a ++ sep :: joinSep sep (b :: bs)
        from rfl] at hmem
      rcases List.mem_append.mp hmem with h1 | h2
      · exact h a (by simp) h1
      · rcases List.mem_cons.mp h2 with h3 | h4
        · exact hc h3
        · exact ih hc (fun s hs => h s (by simp [hs])) h4

theorem joinSep_concat_ext (sep : Char) (dirs : List Str) (base tail : Str) :
    joinSep sep (dirs ++ [base ++ tail]) = joinSep sep (dirs ++ [base]) ++ tail := by
  cases dirs with
  | nil => simp [joinSep]
  | cons d ds =>
    rw [joinSep_append sep (d :: ds) [base ++ tail] (by simp) (by simp),
      joinSep_append sep (d :: ds) [base] (by simp) (by simp)]
    simp [joinSep]

/-- `splitextRoot` strips a dot-led extension from a clean
`dirs ++ [base]`-shaped relative path. -/
theorem splitextRoot_join_ext (dirs : List Str) (base ext : Str)
    (hb : base ≠ []) (hbdot : '.' ∉ base) (hbsl : '/' ∉ base)
    (hddot : ∀ d ∈ dirs, '.' ∉ d) (hdsl : ∀ d ∈ dirs, '/' ∉ d)
    (hedot : '.' ∉ ext) (hesl : '/' ∉ ext) :
    splitextRoot (joinSep '/' (dirs ++ [base]) ++ '.' :: ext)
      = joinSep '/' (dirs ++ [base]) := by
  obtain ⟨hd0, tl0, hbase⟩ : ∃ hd0 tl0, base = hd0 :: tl0 := by
    cases base with
    | nil => exact absurd rfl hb
    | cons u v => exact ⟨u, v, rfl⟩
  have hhd0 : hd0 ≠ '.' := fun hcontra => hbdot (by simp [hbase, hcontra])
  have hdoty : rfindIdx '.' ('.' :: ext) = some 0 := by
    simp [rfindIdx, rfindIdx_of_not_mem hedot]
  have hdot : rfindIdx '.' (joinSep '/' (dirs ++ [base]) ++ '.' :: ext)
      = some (joinSep '/' (dirs ++ [base])).length := by
    simpa using rfindIdx_append_of_some hdoty (joinSep '/' (dirs ++ [base]))
  have hslashy : rfindIdx '/' ('.' :: ext) = none := by
    simp [rfindIdx, rfindIdx_of_not_mem hesl]
  have hslash : rfindIdx '/' (joinSep '/' (dirs ++ [base]) ++ '.' :: ext)
      = rfindIdx '/' (joinSep '/' (dirs ++ [base])) :=
    rfindIdx_append_of_none hslashy (joinSep '/' (dirs ++ [base]))
  rw [splitextRoot]
  rw [hdot]
  simp only [hslash]
  cases dirs with
  | nil =>
    have hBbase : joinSep '/' ([] ++ [base]) = base := by simp [joinSep]
    rw [hBbase, rfindIdx_of_not_mem hbsl]
    have hlen : 0 < base.length := by simp [hbase]
    rw [if_pos (Nat.zero_le _)]
    have hany : (List.range (base.length - 0)).any
        (fun k => (base ++ '.' :: ext).getD (0 + k) '.' != '.') = true := by
      apply List.any_eq_true.mpr
      refine ⟨0, by simpa using hlen, ?_⟩
      simp [hbase, hhd0]
    rw [if_pos hany]
    exact List.take_left base ('.' :: ext)
  | cons d ds =>
    have hBeq : joinSep '/' ((d :: ds) ++ [base])
        = joinSep '/' (d :: ds) ++ '/' :: base := by
      rw [joinSep_append '/' (d :: ds) [base] (by simp) (by simp)]
      simp [joinSep]
    have hslashB : rfindIdx '/' (joinSep '/' ((d :: ds) ++ [base]))
        = some (joinSep '/' (d :: ds)).length := by
      rw [hBeq]
      have h0 : rfindIdx '/' ('/' :: base) = some 0 := by
        simp [rfindIdx, rfindIdx_of_not_mem hbsl]
      simpa using rfindIdx_append_of_some h0 (joinSep '/' (d :: ds))
    rw [hslashB]
    have hlenB : (joinSep '/' ((d :: ds) ++ [base])).length
        = (joinSep '/' (d :: ds)).length + 1 + base.length := by
      rw [hBeq]; simp; omega
    have hle : (joinSep '/' (d :: ds)).length + 1
        ≤ (joinSep '/' ((d :: ds) ++ [base])).length := by omega
    rw [if_pos hle]
    have hany : (List.range ((joinSep '/' ((d :: ds) ++ [base])).length
          - ((joinSep '/' (d :: ds)).length + 1))).any
        (fun k => (joinSep '/' ((d :: ds) ++ [base]) ++ '.' :: ext).getD
          ((joinSep '/' (d :: ds)).length + 1 + k) '.' != '.') = true := by
      apply List.any_eq_true.mpr
      refine ⟨0, ?_, ?_⟩
      · have hblen : 0 < base.length := by simp [hbase]
        simp only [List.mem_range]
        omega
      · have hflat : joinSep '/' ((d :: ds) ++ [base]) ++ '.' :: ext
            = joinSep '/' (d :: ds) ++ '/' :: (base ++ '.' :: ext) := by
          rw [hBeq]; simp
        rw [Nat.add_zero, hflat,
          show (joinSep '/' (d :: ds)).length + 1
            = (joinSep '/' (d :: ds)).length + 1 from rfl]
        have := getD_append_length_add (joinSep '/' (d :: ds))
          ('/' :: (base ++ '.' :: ext)) 1 '.'
        rw [this]
        simp [hbase, hhd0]
    rw [if_pos hany]
    exact List.take_left _ ('.' :: ext)

/-- Evaluation of module identity resolution on a clean relative path
`dirs/base.py` under root `r`: the identity is `dirs.base` joined with dots. -/
theorem path_to_module_fqn_clean (r : Str) (dirs : List Str) (base : Str)
    (hd : ∀ d ∈ dirs, d ≠ [] ∧ '.' ∉ d ∧ '/' ∉ d)
    (hb1 : base ≠ []) (hb2 : '.' ∉ base) (hb3 : '/' ∉ base)
    (hinit : base ≠ "__init__".data) :
    path_to_module_fqn (r ++ '/' :: joinSep '/' (dirs ++ [base ++ ".py".data])) r
      = some (joinSep '.' (dirs ++ [base])) := by
  have hext : (".py".data : Str) = '.' :: "py".data := rfl
  have hA : joinSep '/' (dirs ++ [base ++ ".py".data])
      = joinSep '/' (dirs ++ [base]) ++ '.' :: "py".data := by
    rw [joinSep_concat_ext '/' dirs base ".py".data, hext]
  have hallsl : ∀ s ∈ dirs ++ [base ++ ".py".data], '/' ∉ s := by
    intro s hs
    rcases List.mem_append.mp hs with h1 | h2
    · exact (hd s h1).2.2
    · have hseq : s = base ++ ".py".data := by simpa using h2
      subst hseq
      intro hmem
      rcases List.mem_append.mp hmem with h3 | h4
      · exact hb3 h3
      · revert h4; decide
  have hsegA : splitOnChar '/' (joinSep '/' (dirs ++ [base ++ ".py".data]))
      = dirs ++ [base ++ ".py".data] :=
    splitOnChar_joinSep (by simp) hallsl
  have hAne : joinSep '/' (dirs ++ [base ++ ".py".data]) ≠ [] := by
    rw [hA]; simp
  have hAseg : [] ∉ splitOnChar '/' (joinSep '/' (dirs ++ [base ++ ".py".data])) := by
    rw [hsegA]
    intro hmem
    rcases List.mem_append.mp hmem with h1 | h2
    · exact (hd [] h1).1 rfl
    · have hcontra : ([] : Str) = base ++ ".py".data := by simpa using h2
      exact absurd hcontra.symm (by simp)
  have hrel : relpathPosix (r ++ '/' :: joinSep '/' (dirs ++ [base ++ ".py".data])) r
      = joinSep '/' (dirs ++ [base]) ++ '.' :: "py".data := by
    rw [relpathPosix_append r _ hAne hAseg, hA]
  have hsx : splitextRoot (joinSep '/' (dirs ++ [base]) ++ '.' :: "py".data)
      = joinSep '/' (dirs ++ [base]) :=
    splitextRoot_join_ext dirs base "py".data hb1 hb2 hb3
      (fun d hdm => (hd d hdm).2.1) (fun d hdm => (hd d hdm).2.2)
      (by decide) (by decide)
  have hsegB : splitOnChar '/' (joinSep '/' (dirs ++ [base])) = dirs ++ [base] := by
    refine splitOnChar_joinSep (by simp) ?_
    intro s hs
    rcases List.mem_append.mp hs with h1 | h2
    · exact (hd s h1).2.2
    · have hseq : s = base := by simpa using h2
      subst hseq; exact hb3
  simp only [path_to_module_fqn, isPrefixOf_self_append, Bool.true_eq_false,
    if_false, hrel, hsx, hsegB, List.getLast?_concat]
  rw [if_neg (by simpa using hinit), if_neg (by simp)]

theorem append_singleton_inj {α : Type} {l1 l2 : List α} {a b : α}
    (h : l1 ++ [a] = l2 ++ [b]) : l1 = l2 ∧ a = b := by
  have h2 := congrArg List.reverse h
  simp only [List.reverse_append, List.reverse_singleton, List.singleton_append,
    List.cons.injEq] at h2
  exact ⟨List.reverse_inj.mp h2.2, h2.1⟩

/-- C6 counterexample: `pkg/sub.py` and `pkg/sub/__init__.py` are distinct
files under the same root that both resolve to the identity `pkg.sub` — so a
file other than `pkg/sub/__init__` maps to `pkg.sub`, and resolution is not
injective on distinct files. -/
theorem claim_C6_counterexample :
    path_to_module_fqn "/r/pkg/sub.py".data "/r".data = some "pkg.sub".data
    ∧ path_to_module_fqn "/r/pkg/sub/__init__.py".data "/r".data
        = some "pkg.sub".data
    ∧ "/r/pkg/sub.py".data ≠ "/r/pkg/sub/__init__.py".data := by
  refine ⟨by decide, by decide, by decide⟩

/-- C6 (amended): restricted to `.py` files whose relative path segments are
nonempty, dot-free and slash-free and whose final extension-stripped segment
is not the package-root marker `__init__`, module identity resolution is
injective: two such files with the same identity are the same file.  (Without
the `__init__` restriction this fails: `pkg/sub.py` and `pkg/sub/__init__.py`
both map to `pkg.sub`.) -/
theorem claim_C6_identity_injective (r : Str) (dirs1 dirs2 : List Str)
    (base1 base2 : Str)
    (hd1 : ∀ d ∈ dirs1, d ≠ [] ∧ '.' ∉ d ∧ '/' ∉ d)
    (hd2 : ∀ d ∈ dirs2, d ≠ [] ∧ '.' ∉ d ∧ '/' ∉ d)
    (hb11 : base1 ≠ []) (hb12 : '.' ∉ base1) (hb13 : '/' ∉ base1)
    (hb21 : base2 ≠ []) (hb22 : '.' ∉ base2) (hb23 : '/' ∉ base2)
    (hi1 : base1 ≠ "__init__".data) (hi2 : base2 ≠ "__init__".data)
    (heq : path_to_module_fqn
        (r ++ '/' :: joinSep '/' (dirs1 ++ [base1 ++ ".py".data])) r
      = path_to_module_fqn
        (r ++ '/' :: joinSep '/' (dirs2 ++ [base2 ++ ".py".data])) r) :
    r ++ '/' :: joinSep '/' (dirs1 ++ [base1 ++ ".py".data])
      = r ++ '/' :: joinSep '/' (dirs2 ++ [base2 ++ ".py".data]) := by
  rw [path_to_module_fqn_clean r dirs1 base1 hd1 hb11 hb12 hb13 hi1,
    path_to_module_fqn_clean r dirs2 base2 hd2 hb21 hb22 hb23 hi2] at heq
  have hjoin : joinSep '.' (dirs1 ++ [base1]) = joinSep '.' (dirs2 ++ [base2]) :=
    Option.some.inj heq
  have hdot1 : ∀ s ∈ dirs1 ++ [base1], '.' ∉ s := by
    intro s hs
    rcases List.mem_append.mp hs with h1 | h2
    · exact (hd1 s h1).2.1
    · have hseq : s = base1 := by simpa using h2
      subst hseq; exact hb12
  have hdot2 : ∀ s ∈ dirs2 ++ [base2], '.' ∉ s := by
    intro s hs
    rcases List.mem_append.mp hs with h1 | h2
    · exact (hd2 s h1).2.1
    · have hseq : s = base2 := by simpa using h2
      subst hseq; exact hb22
  have hlists : dirs1 ++ [base1] = dirs2 ++ [base2] := by
    rw [← @splitOnChar_joinSep '.' (dirs1 ++ [base1]) (by simp) hdot1,
      ← @splitOnChar_joinSep '.' (dirs2 ++ [base2]) (by simp) hdot2,
      hjoin]
  obtain ⟨hdeq, hbeq⟩ := append_singleton_inj hlists
  rw [hdeq, hbeq]

/-- Witness for the amended C6 at `pkg/sub.py` under root `/r`. -/
theorem claim_C6_identity_injective_witness :
    "/r".data ++ '/' :: joinSep '/' (["pkg".data] ++ ["sub".data ++ ".py".data])
      = "/r".data ++ '/' :: joinSep '/' (["pkg".data] ++ ["sub".data ++ ".py".data]) :=
  claim_C6_identity_injective "/r".data ["pkg".data] ["pkg".data]
    "sub".data "sub".data (by decide) (by decide) (by decide) (by decide)
    (by decide) (by decide) (by decide) (by decide) (by decide) (by decide)
    (by decide)

/-- Witness for the amended C5 at a file under the root and one outside. -/
theorem claim_C5_identity_resolution_witness :
    path_to_module_fqn "/repo/pkg/mod.py".data "/repo".data
        = path_to_module_fqn_spec "/repo/pkg/mod.py".data "/repo".data
    ∧ path_to_module_fqn "/other/x.py".data "/repo".data
        = path_to_module_fqn_spec "/other/x.py".data "/repo".data := by
  constructor
  · exact claim_C5_identity_resolution "/repo/pkg/mod.py".data "/repo".data
      (Or.inr ⟨"pkg/mod.py".data, by decide, by decide, by decide⟩)
  · exact claim_C5_identity_resolution "/other/x.py".data "/repo".data
      (Or.inl (by decide))

/-- The slice of `networkx.DiGraph` used by the analyzer: an
insertion-ordered node list (`add_node` is idempotent) and an
insertion-ordered edge list where `add_edge` overwrites the weight of an
existing edge, appends a new edge otherwise, and registers missing endpoints
as nodes. -/
structure DiGraph where
  nodes : List Str
  edges : List (Str × Str × ℚ)

def addNode (G : DiGraph) (n : Str) : DiGraph :=
  if n ∈ G.nodes then G else { G with nodes := G.nodes ++ [n] }

def setEdge : List (Str × Str × ℚ) → Str → Str → ℚ → List (Str × Str × ℚ)
  | [], u, v, w => [(u, v, w)]
  | e :: es, u, v, w =>
    if e.1 = u ∧ e.2.1 = v then (u, v, w) :: es else e :: setEdge es u v w

def addEdge (G : DiGraph) (u v : Str) (w : ℚ) : DiGraph :=
  let G1 := addNode (addNode G u) v
  { G1 with edges := setEdge G1.edges u v w }

def edgeWeightL : List (Str × Str × ℚ) → Str → Str → Option ℚ
  | [], _, _ => none
  | e :: es, u, v => if e.1 = u ∧ e.2.1 = v then some e.2.2 else edgeWeightL es u v

/-- The weight attached to edge `(u, v)`, or `none` when the edge is absent. -/
def edgeWeight (G : DiGraph) (u v : Str) : Option ℚ := edgeWeightL G.edges u v

theorem edgeWeightL_setEdge (es : List (Str × Str × ℚ)) (a b u v : Str) (w : ℚ) :
    edgeWeightL (setEdge es a b w) u v
      = if a = u ∧ b = v then some w else edgeWeightL es u v := by
  induction es with
  | nil =>
    by_cases h : a = u ∧ b = v <;> simp [setEdge, edgeWeightL, h]
  | cons e es ih =>
    by_cases h1 : e.1 = a ∧ e.2.1 = b
    · by_cases h2 : a = u ∧ b = v
      · simp [setEdge, edgeWeightL, h1, h2]
      · have h3 : ¬(e.1 = u ∧ e.2.1 = v) := by
          intro hcontra
          exact h2 ⟨h1.1.symm.trans hcontra.1, h1.2.symm.trans hcontra.2⟩
        simp [setEdge, edgeWeightL, h1, h2, h3]
    · by_cases h2 : e.1 = u ∧ e.2.1 = v
      · have h3 : ¬(a = u ∧ b = v) := by
          intro hcontra
          exact h1 ⟨h2.1.trans hcontra.1.symm, h2.2.trans hcontra.2.symm⟩
        have h4 : ¬(u = a ∧ v = b) := fun hc => h3 ⟨hc.1.symm, hc.2.symm⟩
        simp [setEdge, edgeWeightL, h1, h2, h3, h4]
      · simp [setEdge, edgeWeightL, h1, h2, ih]

theorem addNode_of_mem {G : DiGraph} {n : Str} (h : n ∈ G.nodes) :
    addNode G n = G := by
  simp [addNode, h]

theorem edges_addNode (G : DiGraph) (n : Str) : (addNode G n).edges = G.edges := by
  by_cases h : n ∈ G.nodes <;> simp [addNode, h]

theorem edgeWeight_addEdge (G : DiGraph) (a b u v : Str) (w : ℚ) :
    edgeWeight (addEdge G a b w) u v
      = if a = u ∧ b = v then some w else edgeWeight G u v := by
  simp only [edgeWeight, addEdge, edges_addNode]
  exact edgeWeightL_setEdge G.edges a b u v w

theorem nodes_addEdge {G : DiGraph} {u v : Str} (w : ℚ)
    (hu : u ∈ G.nodes) (hv : v ∈ G.nodes) : (addEdge G u v w).nodes = G.nodes := by
  simp only [addEdge, addNode_of_mem hu]
  rw [addNode_of_mem hv]

/-- One iteration of the inner edge-building loop of `analyze_repo`
(`src/coderank.py` lines 408-433) for a single raw imported FQN of the
current module: classify the target as a configured external root, a known
internal module, or ignored, and add the mutually transposed weighted edges
to the two graphs unless they would form a self-loop. -/
def processImport (externals internals : List Str)
    (weight_internal weight_external_import weight_external_dependency : ℚ)
    (current_fqn imported_fqn_full : Str) (GG : DiGraph × DiGraph) :
    DiGraph × DiGraph :=
  let imported_root := (splitOnChar '.' imported_fqn_full).headD []
  if imported_root ∈ externals then
    if current_fqn ≠ imported_root then
      (addEdge GG.1 current_fqn imported_root weight_external_import,
       addEdge GG.2 imported_root current_fqn weight_external_dependency)
    else GG
  else if imported_fqn_full ∈ internals then
    if current_fqn ≠ imported_fqn_full then
      (addEdge GG.1 current_fqn imported_fqn_full weight_internal,
       addEdge GG.2 imported_fqn_full current_fqn weight_internal)
    else GG
  else GG

/-- The set of internal module FQNs of a run, from the `(module FQN,
raw imported FQNs)` pairs of the files that obtained a module identity
(`internal_module_fqns` in `analyze_repo`; Python-set membership is modelled
by a deduplicated list). -/
def internalsOf (files : List (Str × List Str)) : List Str :=
  (files.map Prod.fst).dedup

/-- Graph construction from `analyze_repo` (`src/coderank.py` lines 386-433):
seed both graphs with one node per internal module and per configured
external target, then walk the raw imported FQNs of every file adding transposed
weighted edges. -/
def buildGraphs (externals : List Str) (wI wEI wED : ℚ)
    (files : List (Str × List Str)) : DiGraph × DiGraph :=
  let all_graph_nodes := (internalsOf files ++ externals).dedup
  let G0 : DiGraph := { nodes := all_graph_nodes, edges := [] }
  files.foldl
    (fun GG fi => fi.2.foldl
      (fun GG2 imp =>
        processImport externals (internalsOf files) wI wEI wED fi.1 imp GG2)
      GG)
    (G0, G0)

theorem buildGraphs_inv (externals : List Str) (wI wEI wED : ℚ)
    (files : List (Str × List Str)) (P : DiGraph × DiGraph → Prop)
    (h0 : P ({ nodes := (internalsOf files ++ externals).dedup, edges := [] },
             { nodes := (internalsOf files ++ externals).dedup, edges := [] }))
    (hstep : ∀ GG cur imp, cur ∈ internalsOf files → P GG →
      P (processImport externals (internalsOf files) wI wEI wED cur imp GG)) :
    P (buildGraphs externals wI wEI wED files) := by
  have inner : ∀ (cur : Str), cur ∈ internalsOf files →
      ∀ (imps : List Str) (GG : DiGraph × DiGraph), P GG →
      P (imps.foldl
        (fun GG2 imp =>
          processImport externals (internalsOf files) wI wEI wED cur imp GG2) GG) := by
    intro cur hcur imps
    induction imps with
    | nil => intro GG h; exact h
    | cons i is ih =>
      intro GG h
      simp only [List.foldl_cons]
      exact ih _ (hstep GG cur i hcur h)
  have main : ∀ (l : List (Str × List Str)),
      (∀ fi ∈ l, fi.1 ∈ internalsOf files) →
      ∀ GG, P GG →
      P (l.foldl
        (fun GG fi => fi.2.foldl
          (fun GG2 imp =>
            processImport externals (internalsOf files) wI wEI wED fi.1 imp GG2) GG)
        GG) := by
    intro l
    induction l with
    | nil => intro _ GG h; exact h
    | cons fi fs ih =>
      intro hmem GG hP
      simp only [List.foldl_cons]
      exact ih (fun g hg => hmem g (by simp [hg]))
        _ (inner fi.1 (hmem fi (by simp)) fi.2 GG hP)
  have hfiles : ∀ fi ∈ files, fi.1 ∈ internalsOf files := by
    intro fi hf
    exact List.mem_dedup.mpr (List.mem_map_of_mem Prod.fst hf)
  simpa only [buildGraphs] using main files hfiles _ h0

/-- Adding a non-loop pair of transposed edges preserves loop-freedom. -/
theorem no_loops_addEdge_pair {G1 G2 : DiGraph} {a b : Str} (w1 w2 : ℚ)
    (hab : a ≠ b)
    (h : ∀ x, edgeWeight G1 x x = none ∧ edgeWeight G2 x x = none) (x : Str) :
    edgeWeight (addEdge G1 a b w1) x x = none
    ∧ edgeWeight (addEdge G2 b a w2) x x = none := by
  constructor
  · rw [edgeWeight_addEdge,
      if_neg (fun hc => hab ((hc : a = x ∧ b = x).1.trans hc.2.symm))]
    exact (h x).1
  · rw [edgeWeight_addEdge,
      if_neg (fun hc => hab ((hc : b = x ∧ a = x).2.trans hc.1.symm))]
    exact (h x).2

/-- C8: for every module `m`, neither the imports graph nor the imported-by
graph ever contains the self-loop edge `(m, m)`: an import whose resolved
target equals the importing module adds no edge to either graph. -/
theorem claim_C8_no_self_loops (externals : List Str) (wI wEI wED : ℚ)
    (files : List (Str × List Str)) (m : Str) :
    edgeWeight (buildGraphs externals wI wEI wED files).1 m m = none
    ∧ edgeWeight (buildGraphs externals wI wEI wED files).2 m m = none := by
  have hinv := buildGraphs_inv externals wI wEI wED files
    (fun GG => ∀ x, edgeWeight GG.1 x x = none ∧ edgeWeight GG.2 x x = none)
    (fun x => by simp [edgeWeight, edgeWeightL])
    (by
      intro GG cur imp hcur hP
      simp only [processImport]
      split_ifs with h1 h2 h3 h4
      · exact no_loops_addEdge_pair wEI wED h2 hP
      · exact hP
      · exact no_loops_addEdge_pair wI wI h4 hP
      · exact hP
      · exact hP)
  exact hinv m

/-- The paired-transpose edge invariant of the two graphs: every ordered pair
`(u, v)` either has no edge in the imports graph and no reverse edge in
the imported-by graph, or it has both, with weights `(wI, wI)` (internal) or
`(wEI, wED)` (internal-to-external paired with external-to-internal). -/
def pairedEdges (wI wEI wED : ℚ) (GG : DiGraph × DiGraph) : Prop :=
  ∀ u v, (edgeWeight GG.1 u v = none ∧ edgeWeight GG.2 v u = none)
    ∨ (edgeWeight GG.1 u v = some wI ∧ edgeWeight GG.2 v u = some wI)
    ∨ (edgeWeight GG.1 u v = some wEI ∧ edgeWeight GG.2 v u = some wED)

theorem pairedEdges_addEdge {wI wEI wED : ℚ} {G1 G2 : DiGraph} {a b : Str}
    {w w2 : ℚ} (hch : (w = wI ∧ w2 = wI) ∨ (w = wEI ∧ w2 = wED))
    (h : pairedEdges wI wEI wED (G1, G2)) :
    pairedEdges wI wEI wED (addEdge G1 a b w, addEdge G2 b a w2) := by
  intro u v
  simp only [edgeWeight_addEdge]
  by_cases hm : a = u ∧ b = v
  · rw [if_pos hm, if_pos ⟨hm.2, hm.1⟩]
    rcases hch with ⟨hw, hw2⟩ | ⟨hw, hw2⟩
    · exact Or.inr (Or.inl ⟨by rw [hw], by rw [hw2]⟩)
    · exact Or.inr (Or.inr ⟨by rw [hw], by rw [hw2]⟩)
  · rw [if_neg hm, if_neg (fun hc => hm ⟨hc.2, hc.1⟩)]
    exact h u v

/-- C2: the imported-by graph is the exact structural transpose of
the imports graph.  Both graphs carry the identical node set, consisting of
exactly the internal modules and the configured external targets (all seeded
before any edge is added); an edge `(u, v)` is present in the imports graph
iff `(v, u)` is present in the imported-by graph; and the paired weights are
either internal/internal or internal-to-external/external-to-internal. -/
theorem claim_C2_transpose_graphs (externals : List Str) (wI wEI wED : ℚ)
    (files : List (Str × List Str)) :
    (buildGraphs externals wI wEI wED files).1.nodes
        = (buildGraphs externals wI wEI wED files).2.nodes
    ∧ (∀ n, n ∈ (buildGraphs externals wI wEI wED files).1.nodes
        ↔ (n ∈ internalsOf files ∨ n ∈ externals))
    ∧ (∀ u v, (edgeWeight (buildGraphs externals wI wEI wED files).1 u v).isSome
        ↔ (edgeWeight (buildGraphs externals wI wEI wED files).2 v u).isSome)
    ∧ (∀ u v w,
        edgeWeight (buildGraphs externals wI wEI wED files).1 u v = some w →
        (w = wI
          ∧ edgeWeight (buildGraphs externals wI wEI wED files).2 v u = some wI)
        ∨ (w = wEI
          ∧ edgeWeight (buildGraphs externals wI wEI wED files).2 v u = some wED)) := by
  have hinv := buildGraphs_inv externals wI wEI wED files
    (fun GG => GG.1.nodes = (internalsOf files ++ externals).dedup
      ∧ GG.2.nodes = (internalsOf files ++ externals).dedup
      ∧ pairedEdges wI wEI wED GG)
    (by
      refine ⟨rfl, rfl, ?_⟩
      intro u v
      exact Or.inl ⟨rfl, rfl⟩)
    (by
      intro GG cur imp hcur hP
      obtain ⟨hn1, hn2, hpe⟩ := hP
      have hcur0 : cur ∈ (internalsOf files ++ externals).dedup :=
        List.mem_dedup.mpr (List.mem_append.mpr (Or.inl hcur))
      simp only [processImport]
      split_ifs with h1 h2 h3 h4
      · -- external target: paired (wEI, wED) edges
        have htgt : (splitOnChar '.' imp).headD [] ∈
            (internalsOf files ++ externals).dedup :=
          List.mem_dedup.mpr (List.mem_append.mpr (Or.inr h1))
        refine ⟨?_, ?_, ?_⟩
        · rw [nodes_addEdge wEI (hn1 ▸ hcur0) (hn1 ▸ htgt)]; exact hn1
        · rw [nodes_addEdge wED (hn2 ▸ htgt) (hn2 ▸ hcur0)]; exact hn2
        · exact pairedEdges_addEdge (Or.inr ⟨rfl, rfl⟩)
            (by cases GG; exact hpe)
      · exact ⟨hn1, hn2, hpe⟩
      · -- internal target: paired (wI, wI) edges
        have htgt : imp ∈ (internalsOf files ++ externals).dedup :=
          List.mem_dedup.mpr (List.mem_append.mpr (Or.inl h3))
        refine ⟨?_, ?_, ?_⟩
        · rw [nodes_addEdge wI (hn1 ▸ hcur0) (hn1 ▸ htgt)]; exact hn1
        · rw [nodes_addEdge wI (hn2 ▸ htgt) (hn2 ▸ hcur0)]; exact hn2
        · exact pairedEdges_addEdge (Or.inl ⟨rfl, rfl⟩)
            (by cases GG; exact hpe)
      · exact ⟨hn1, hn2, hpe⟩
      · exact ⟨hn1, hn2, hpe⟩)
  obtain ⟨hn1, hn2, hpe⟩ := hinv
  refine ⟨hn1.trans hn2.symm, ?_, ?_, ?_⟩
  · intro n
    rw [hn1, List.mem_dedup, List.mem_append]
  · intro u v
    rcases hpe u v with ⟨ha, hb⟩ | ⟨ha, hb⟩ | ⟨ha, hb⟩ <;> rw [ha, hb] <;> simp
  · intro u v w hw
    rcases hpe u v with ⟨ha, hb⟩ | ⟨ha, hb⟩ | ⟨ha, hb⟩
    · rw [hw] at ha; exact absurd ha (by simp)
    · rw [hw] at ha
      exact Or.inl ⟨Option.some.inj ha, hb⟩
    · rw [hw] at ha
      exact Or.inr ⟨Option.some.inj ha, hb⟩

-- Sanity check: the end-to-end scenario of the spec.  Internal modules `pkg.a`
-- (importing `pkg.b` and `ext.thing`) and `pkg.b`; external target `ext`;
-- weights 1, 1/2, 1/2.
example :
    edgeWeight (buildGraphs ["ext".data] 1 (1/2) (1/2)
      [("pkg.a".data, ["pkg.b".data, "ext.thing".data]), ("pkg.b".data, [])]).1
      "pkg.a".data "pkg.b".data = some 1 := by with_unfolding_all decide
example :
    edgeWeight (buildGraphs ["ext".data] 1 (1/2) (1/2)
      [("pkg.a".data, ["pkg.b".data, "ext.thing".data]), ("pkg.b".data, [])]).1
      "pkg.a".data "ext".data = some (1/2) := by with_unfolding_all decide
example :
    edgeWeight (buildGraphs ["ext".data] 1 (1/2) (1/2)
      [("pkg.a".data, ["pkg.b".data, "ext.thing".data]), ("pkg.b".data, [])]).2
      "ext".data "pkg.a".data = some (1/2) := by with_unfolding_all decide
example :
    edgeWeight (buildGraphs ["ext".data] 1 (1/2) (1/2)
      [("pkg.a".data, ["pkg.b".data, "ext.thing".data]), ("pkg.b".data, [])]).2
      "pkg.b".data "pkg.a".data = some 1 := by with_unfolding_all decide

/-- First-match lookup in an insertion-ordered association list
(Python dict access). -/
def dictGet? {α : Type} : List (Str × α) → Str → Option α
  | [], _ => none
  | (k2, v2) :: rest, k => if k2 = k then some v2 else dictGet? rest k

/-- Python `dict.get(k, d)`. -/
def dictGetD {α : Type} (l : List (Str × α)) (k : Str) (d : α) : α :=
  (dictGet? l k).getD d

/-- Python `dict[k] = v`: update in place if the key exists, append otherwise. -/
def dictSet {α : Type} : List (Str × α) → Str → α → List (Str × α)
  | [], k, v => [(k, v)]
  | (k2, v2) :: rest, k, v =>
    if k2 = k then (k, v) :: rest else (k2, v2) :: dictSet rest k v

/-- Python `k in dict`. -/
def dictHas {α : Type} (l : List (Str × α)) (k : Str) : Bool :=
  (dictGet? l k).isSome

theorem dictGet?_dictSet {α : Type} (l : List (Str × α)) (k k2 : Str) (v : α) :
    dictGet? (dictSet l k v) k2 = if k = k2 then some v else dictGet? l k2 := by
  induction l with
  | nil => by_cases h : k = k2 <;> simp [dictSet, dictGet?, h]
  | cons e es ih =>
    by_cases h1 : e.1 = k
    · by_cases h2 : k = k2
      · simp [dictSet, dictGet?, h1, h2]
      · have h3 : ¬(e.1 = k2) := fun hc => h2 (h1.symm.trans hc)
        simp [dictSet, dictGet?, h1, h2, h3]
    · by_cases h2 : e.1 = k2
      · have h3 : ¬(k = k2) := fun hc => h1 (h2.trans hc.symm)
        have h4 : ¬(k2 = k) := fun hc => h3 hc.symm
        simp [dictSet, dictGet?, h1, h2, h3, h4]
      · simp [dictSet, dictGet?, h1, h2, ih]

/-- Absolute value on the score field. -/
def ratAbs (q : ℚ) : ℚ := if q < 0 then -q else q

/-- Total outbound edge weight of a node (row sum used to make the
transition stochastic). -/
def outWeight (G : DiGraph) (u : Str) : ℚ :=
  G.edges.foldl (fun acc e => if e.1 = u then acc + e.2.2 else acc) 0

/-- Weighted inbound contribution to node `n` under scores `x`: each inbound
score of each inbound neighbor times the edge weight over that neighbor, total outbound
weight. -/
def inContribution (G : DiGraph) (x : List (Str × ℚ)) (n : Str) : ℚ :=
  G.edges.foldl
    (fun acc e =>
      if e.2.1 = n then acc + dictGetD x e.1 0 * e.2.2 / outWeight G e.1 else acc)
    0

/-- Modelled from the spec (section 4.5): one damped iteration step of the
ranking fixed point — the power iteration of `networkx.pagerank` is an
external library dependency, not among the sources of this repository.  The new
score of each node is `(1-α)/N` plus `α` times the weighted sum of the
scores of inbound neighbors divided by their outbound weight totals. -/
def prStep (G : DiGraph) (α : ℚ) (x : List (Str × ℚ)) : List (Str × ℚ) :=
  G.nodes.map fun n =>
    (n, (1 - α) / (G.nodes.length : ℚ) + α * inContribution G x n)

/-- Total absolute score change between two iterates. -/
def prErr (G : DiGraph) (x y : List (Str × ℚ)) : ℚ :=
  G.nodes.foldl (fun acc n => acc + ratAbs (dictGetD x n 0 - dictGetD y n 0)) 0

/-- Modelled from the spec (section 4.5): the damped ranking iteration with a
tolerance and an iteration cap (`networkx.pagerank` is an external library
dependency, not among the sources of this repository).  `none` models the
`PowerIterationFailedConvergence` exception raised when the cap is exhausted
before the total change drops below `N * tol`. -/
def prLoop (G : DiGraph) (α tol : ℚ) : Nat → List (Str × ℚ) → Option (List (Str × ℚ))
  | 0, _ => none
  | Nat.succ k, x =>
    let x2 := prStep G α x
    if prErr G x x2 < (G.nodes.length : ℚ) * tol then some x2
    else prLoop G α tol k x2

/-- Modelled from the spec (section 4.5): run the damped ranking iteration
from the uniform starting vector `1/N`. -/
def pagerankIter (G : DiGraph) (α tol : ℚ) (maxIter : Nat) :
    Option (List (Str × ℚ)) :=
  prLoop G α tol maxIter (G.nodes.map fun n => (n, 1 / (G.nodes.length : ℚ)))

/-- The ranking step of `analyze_repo` (`src/coderank.py` lines 450-454 and
468-473): call the ranking iteration and, when it fails to converge, fall
back to the uniform distribution `1/N` per node instead of raising. -/
def pagerank_with_fallback (G : DiGraph) (α tol : ℚ) (maxIter : Nat) :
    List (Str × ℚ) :=
  match pagerankIter G α tol maxIter with
  | some scores => scores
  | none => G.nodes.map fun n => (n, 1 / (G.nodes.length : ℚ))

theorem dictGetD_map_const {c : ℚ} : ∀ {l : List Str} {n : Str}, n ∈ l →
    dictGetD (l.map fun m => (m, c)) n 0 = c := by
  intro l
  induction l with
  | nil => intro n h; exact absurd h (List.not_mem_nil n)
  | cons a as ih =>
    intro n h
    by_cases ha : a = n
    · simp [dictGetD, dictGet?, ha]
    · have hmem : n ∈ as := by
        rcases List.mem_cons.mp h with h1 | h2
        · exact absurd h1.symm ha
        · exact h2
      simpa [dictGetD, dictGet?, ha] using ih hmem

/-- C4: if the damped ranking iteration on a graph fails to converge within
the iteration cap (modelled by `pagerankIter` returning `none`, the
`PowerIterationFailedConvergence` exception), the ranking step returns the
uniform distribution assigning `1/N` to every one of the `N` nodes of the graph
instead of raising, and the run continues with that complete score map. -/
theorem claim_C4_uniform_fallback (G : DiGraph) (α tol : ℚ) (maxIter : Nat)
    (h : pagerankIter G α tol maxIter = none) :
    pagerank_with_fallback G α tol maxIter
        = G.nodes.map (fun n => (n, 1 / (G.nodes.length : ℚ)))
    ∧ ∀ n, n ∈ G.nodes →
        dictGetD (pagerank_with_fallback G α tol maxIter) n 0
          = 1 / (G.nodes.length : ℚ) := by
  have hval : pagerank_with_fallback G α tol maxIter
      = G.nodes.map (fun n => (n, 1 / (G.nodes.length : ℚ))) := by
    rw [pagerank_with_fallback, h]
  refine ⟨hval, ?_⟩
  intro n hn
  rw [hval]
  exact dictGetD_map_const hn

/-- Witness for C4: a two-node cycle with damping 1, tolerance 0 and cap 3
never passes the strict convergence test, so the fallback yields `1/2` per
node. -/
theorem claim_C4_uniform_fallback_witness :
    pagerank_with_fallback
        { nodes := ["a".data, "b".data],
          edges := [("a".data, "b".data, 1), ("b".data, "a".data, 1)] } 1 0 3
      = [("a".data, (1 : ℚ)/2), ("b".data, (1 : ℚ)/2)]
    ∧ dictGetD (pagerank_with_fallback
        { nodes := ["a".data, "b".data],
          edges := [("a".data, "b".data, 1), ("b".data, "a".data, 1)] } 1 0 3)
        "a".data 0 = (1 : ℚ)/2 := by
  have h := claim_C4_uniform_fallback
    { nodes := ["a".data, "b".data],
      edges := [("a".data, "b".data, 1), ("b".data, "a".data, 1)] } 1 0 3
    (by with_unfolding_all decide)
  refine ⟨?_, ?_⟩
  · rw [h.1]
    with_unfolding_all decide
  · exact h.2 "a".data (by decide)

/-- Scores of the imports graph (`pagerank_being_imported` in `analyze_repo`,
with the hardcoded source values `tol=1.0e-8` and `max_iter=200`). -/
def importsScores (externals : List Str) (α wI wEI wED : ℚ)
    (files : List (Str × List Str)) : List (Str × ℚ) :=
  pagerank_with_fallback (buildGraphs externals wI wEI wED files).1 α
    (1/100000000) 200

/-- Scores of the imported-by graph (`pagerank_importing_others` in
`analyze_repo`). -/
def importedByScores (externals : List Str) (α wI wEI wED : ℚ)
    (files : List (Str × List Str)) : List (Str × ℚ) :=
  pagerank_with_fallback (buildGraphs externals wI wEI wED files).2 α
    (1/100000000) 200

/-- The final CodeRank mapping of `analyze_repo` (`src/coderank.py` lines
476-489): for each internal module, the sum of its score in the imports
graph and its score in the imported-by graph (`pagerank.get(m, 0)` is the
default-0 dict access). -/
def analyzeCodeRanks (externals : List Str) (α wI wEI wED : ℚ)
    (files : List (Str × List Str)) : List (Str × ℚ) :=
  (internalsOf files).map fun m =>
    (m, dictGetD (importsScores externals α wI wEI wED files) m 0
      + dictGetD (importedByScores externals α wI wEI wED files) m 0)

theorem dictGet?_map_fn {f : Str → ℚ} : ∀ {l : List Str} {m : Str}, m ∈ l →
    dictGet? (l.map fun x => (x, f x)) m = some (f m) := by
  intro l
  induction l with
  | nil => intro m h; exact absurd h (List.not_mem_nil m)
  | cons a as ih =>
    intro m h
    by_cases ha : a = m
    · simp [dictGet?, ha]
    · have hmem : m ∈ as := by
        rcases List.mem_cons.mp h with h1 | h2
        · exact absurd h1.symm ha
        · exact h2
      simpa [dictGet?, ha] using ih hmem

/-- C1 counterexample: with one internal module `a` and configured external
target list `["a"]`, the configured external target `a` DOES appear in the
final reported CodeRank mapping — the code performs no exclusion check when
a name is both a discovered internal module and a configured external
target. -/
theorem claim_C1_counterexample :
    "a".data ∈ (analyzeCodeRanks ["a".data] (1/2) 1 (1/2) (1/2)
      [("a".data, [])]).map Prod.fst
    ∧ "a".data ∈ ["a".data] := by
  refine ⟨by with_unfolding_all decide, by decide⟩

/-- C1 (amended): the reported CodeRank mapping is keyed by exactly the
internal modules, and for every internal module `m` its CodeRank equals
its imports-graph score plus its imported-by-graph score; a configured external
target that is not itself an internal module never appears among the keys
(a name that is both internal and a configured external target does appear). -/
theorem claim_C1_coderank_combination (externals : List Str) (α wI wEI wED : ℚ)
    (files : List (Str × List Str)) (m e : Str)
    (hm : m ∈ internalsOf files) (he : e ∈ externals)
    (hni : e ∉ internalsOf files) :
    (analyzeCodeRanks externals α wI wEI wED files).map Prod.fst
        = internalsOf files
    ∧ dictGet? (analyzeCodeRanks externals α wI wEI wED files) m
        = some (dictGetD (importsScores externals α wI wEI wED files) m 0
          + dictGetD (importedByScores externals α wI wEI wED files) m 0)
    ∧ e ∉ (analyzeCodeRanks externals α wI wEI wED files).map Prod.fst := by
  have hkeys : (analyzeCodeRanks externals α wI wEI wED files).map Prod.fst
      = internalsOf files := by
    simp only [analyzeCodeRanks, List.map_map]
    rw [show (Prod.fst ∘ fun m =>
      (m, dictGetD (importsScores externals α wI wEI wED files) m 0
        + dictGetD (importedByScores externals α wI wEI wED files) m 0)) = id
      from rfl, List.map_id]
  refine ⟨hkeys, ?_, ?_⟩
  · simp only [analyzeCodeRanks]
    exact dictGet?_map_fn hm
  · rw [hkeys]
    exact hni

/-- Witness for the amended C1: files `a` (importing `b`) and `b`, external
target `ext`. -/
theorem claim_C1_coderank_combination_witness :
    (analyzeCodeRanks ["ext".data] (1/2) 1 (1/2) (1/2)
        [("a".data, ["b".data]), ("b".data, [])]).map Prod.fst
      = internalsOf [("a".data, ["b".data]), ("b".data, [])]
    ∧ dictGet? (analyzeCodeRanks ["ext".data] (1/2) 1 (1/2) (1/2)
        [("a".data, ["b".data]), ("b".data, [])]) "a".data
      = some (dictGetD (importsScores ["ext".data] (1/2) 1 (1/2) (1/2)
          [("a".data, ["b".data]), ("b".data, [])]) "a".data 0
        + dictGetD (importedByScores ["ext".data] (1/2) 1 (1/2) (1/2)
          [("a".data, ["b".data]), ("b".data, [])]) "a".data 0)
    ∧ "ext".data ∉ (analyzeCodeRanks ["ext".data] (1/2) 1 (1/2) (1/2)
        [("a".data, ["b".data]), ("b".data, [])]).map Prod.fst := by
  have h := claim_C1_coderank_combination ["ext".data] (1/2) 1 (1/2) (1/2)
    [("a".data, ["b".data]), ("b".data, [])] "a".data "ext".data
    (by decide) (by decide) (by decide)
  exact ⟨h.1, h.2.1, h.2.2⟩

/-- The slice of the Python AST that symbol extraction inspects: class
definitions, function-like definitions (`FunctionDef`/`AsyncFunctionDef`),
and any other statement. -/
inductive PyStmt where
  | classDef (name : Str) (body : List PyStmt)
  | funcDef (name : Str) (body : List PyStmt)
  | other

/-- Child statements of a node, as traversed by `ast.walk`. -/
def childrenOf : PyStmt → List PyStmt
  | .classDef _ body => body
  | .funcDef _ body => body
  | .other => []

mutual
def stmtSize : PyStmt → Nat
  | .classDef _ b => 1 + stmtListSize b
  | .funcDef _ b => 1 + stmtListSize b
  | .other => 1
def stmtListSize : List PyStmt → Nat
  | [] => 0
  | s :: rest => stmtSize s + stmtListSize rest
end

theorem stmtListSize_append (l1 l2 : List PyStmt) :
    stmtListSize (l1 ++ l2) = stmtListSize l1 + stmtListSize l2 := by
  induction l1 with
  | nil => simp [stmtListSize]
  | cons s rest ih => simp [stmtListSize, ih]; omega

theorem stmtSize_eq_children (n : PyStmt) :
    stmtSize n = 1 + stmtListSize (childrenOf n) := by
  cases n <;> simp [childrenOf, stmtSize, stmtListSize]

/-- Breadth-first traversal worker: the fuel is a structural-recursion
artifact; `walkBFS` always supplies exactly the total node count, which the
queue measure consumes one unit of per step, so the `0`-fuel case is
unreachable. -/
def walkBFSFuel : Nat → List PyStmt → List PyStmt
  | 0, _ => []
  | _ + 1, [] => []
  | fuel + 1, n :: rest => n :: walkBFSFuel fuel (rest ++ childrenOf n)

/-- `ast.walk` restricted to the modelled node kinds: breadth-first traversal
yielding every node of the queue and, recursively, all descendants. -/
def walkBFS (queue : List PyStmt) : List PyStmt :=
  walkBFSFuel (stmtListSize queue) queue

theorem walkBFS_nil : walkBFS [] = [] := rfl

theorem walkBFS_cons (n : PyStmt) (rest : List PyStmt) :
    walkBFS (n :: rest) = n :: walkBFS (rest ++ childrenOf n) := by
  have hstep : stmtListSize (n :: rest)
      = stmtListSize (rest ++ childrenOf n) + 1 := by
    rw [stmtListSize_append]
    rw [show stmtListSize (n :: rest) = stmtSize n + stmtListSize rest from rfl,
      stmtSize_eq_children n]
    omega
  show walkBFSFuel (stmtListSize (n :: rest)) (n :: rest) = _
  rw [hstep]
  rfl

/-- The symbol kinds recorded in `python_symbols_db`. -/
inductive SymKind where
  | module
  | cls
  | method
  | function
deriving DecidableEq

/-- One entry of `python_symbols_db`: symbol kind, owning module FQN, and
source file path. -/
structure SymInfo where
  type : SymKind
  module_fqn : Str
  file_path : Str
deriving DecidableEq

abbrev SymDb := List (Str × SymInfo)

/-- `extract_python_symbols(file_path, current_module_fqn, abs_repo_path,
python_symbols_db)` from `src/coderank.py` lines 150-220, over an
already-parsed tree (`tree.body` as a statement list; a file that fails to
parse contributes nothing and is modelled by not calling this function).
The `abs_repo_path` parameter is unused in the source body and omitted here.

Registration order mirrors the source: the module symbol is stored first
(unconditional dict assignment); then every `ClassDef` found anywhere by
`ast.walk` stores a class symbol and, per direct function-like member of its
body, a method symbol (all unconditional assignments); finally every
function-like direct child of the module body stores a function symbol only
if its FQN is not already present. -/
def extract_python_symbols (file_path : Str) (current_module_fqn : Str)
    (tree : List PyStmt) (python_symbols_db : SymDb) : SymDb :=
  if current_module_fqn = [] then python_symbols_db
  else
    let db0 := dictSet python_symbols_db current_module_fqn
      ⟨SymKind.module, current_module_fqn, file_path⟩
    let db1 := (walkBFS tree).foldl
      (fun db n =>
        match n with
        | PyStmt.classDef cname cbody =>
          let class_fqn := current_module_fqn ++ '.' :: cname
          let db2 := dictSet db class_fqn
            ⟨SymKind.cls, current_module_fqn, file_path⟩
          cbody.foldl
            (fun db3 sub =>
              match sub with
              | PyStmt.funcDef mname _ =>
                dictSet db3 (class_fqn ++ '.' :: mname)
                  ⟨SymKind.method, current_module_fqn, file_path⟩
              | _ => db3)
            db2
        | _ => db)
      db0
    tree.foldl
      (fun db n =>
        match n with
        | PyStmt.funcDef fname _ =>
          let function_fqn := current_module_fqn ++ '.' :: fname
          if dictHas db function_fqn then db
          else dictSet db function_fqn
            ⟨SymKind.function, current_module_fqn, file_path⟩
        | _ => db)
      db1

-- Sanity checks: module, class, method and top-level function symbols.
example :
    dictGet? (extract_python_symbols "f.py".data "pkg.mod".data
      [PyStmt.classDef "C".data [PyStmt.funcDef "m".data []],
       PyStmt.funcDef "g".data []] []) "pkg.mod.C.m".data
    = some ⟨SymKind.method, "pkg.mod".data, "f.py".data⟩ := by decide
example :
    dictGet? (extract_python_symbols "f.py".data "pkg.mod".data
      [PyStmt.classDef "C".data [PyStmt.funcDef "m".data []],
       PyStmt.funcDef "g".data []] []) "pkg.mod.g".data
    = some ⟨SymKind.function, "pkg.mod".data, "f.py".data⟩ := by decide
-- A top-level function whose FQN collides with an existing entry is skipped
-- (first-registration-wins for functions only).
example :
    dictGet? (extract_python_symbols "f.py".data "pkg".data
      [PyStmt.classDef "x".data [], PyStmt.funcDef "x".data []] []) "pkg.x".data
    = some ⟨SymKind.cls, "pkg".data, "f.py".data⟩ := by decide

/-- C9 counterexample: registering symbols from a second file whose class
`mod` collides with the already-registered module symbol `pkg.mod` REPLACES
the earlier entry (last-write-wins), contradicting first-registration-wins
for class-kind symbols. -/
theorem claim_C9_counterexample :
    dictGet? (extract_python_symbols "p1.py".data "pkg.mod".data [] [])
        "pkg.mod".data
      = some ⟨SymKind.module, "pkg.mod".data, "p1.py".data⟩
    ∧ dictGet? (extract_python_symbols "p2.py".data "pkg".data
          [PyStmt.classDef "mod".data []]
          (extract_python_symbols "p1.py".data "pkg.mod".data [] []))
        "pkg.mod".data
      = some ⟨SymKind.cls, "pkg".data, "p2.py".data⟩ := by
  refine ⟨by decide, by decide⟩

theorem self_ne_append_cons (a b : Str) (c : Char) : a ≠ a ++ c :: b := by
  intro h
  have hlen := congrArg List.length h
  simp at hlen

/-- C9 (amended): during symbol extraction, first-registration-wins applies
only to top-level function symbols — a function whose FQN is already
registered is skipped, leaving the extraction result at the module-symbol
update alone; module, class, and method registrations are unconditional dict
assignments that overwrite any already-registered entry under the same FQN
(last-write-wins), whatever the database already contains. -/
theorem claim_C9_first_wins_functions_only (db : SymDb)
    (fqn fname cname mname fpath : Str)
    (hfqn : fqn ≠ [])
    (hhas : dictHas db (fqn ++ '.' :: fname) = true) :
    extract_python_symbols fpath fqn [PyStmt.funcDef fname []] db
        = dictSet db fqn ⟨SymKind.module, fqn, fpath⟩
    ∧ dictGet? (extract_python_symbols fpath fqn [PyStmt.classDef cname []] db)
        (fqn ++ '.' :: cname) = some ⟨SymKind.cls, fqn, fpath⟩
    ∧ dictGet? (extract_python_symbols fpath fqn
          [PyStmt.classDef cname [PyStmt.funcDef mname []]] db)
        ((fqn ++ '.' :: cname) ++ '.' :: mname)
      = some ⟨SymKind.method, fqn, fpath⟩
    ∧ dictGet? (extract_python_symbols fpath fqn [] db) fqn
      = some ⟨SymKind.module, fqn, fpath⟩ := by
  have hw1 : walkBFS [PyStmt.funcDef fname []] = [PyStmt.funcDef fname []] := by
    rw [walkBFS_cons]; rfl
  have hw2 : walkBFS [PyStmt.classDef cname []] = [PyStmt.classDef cname []] := by
    rw [walkBFS_cons]; rfl
  have hw3 : walkBFS [PyStmt.classDef cname [PyStmt.funcDef mname []]]
      = [PyStmt.classDef cname [PyStmt.funcDef mname []],
         PyStmt.funcDef mname []] := by
    rw [walkBFS_cons,
      show ([] : List PyStmt) ++ childrenOf
          (PyStmt.classDef cname [PyStmt.funcDef mname []])
        = [PyStmt.funcDef mname []] from rfl,
      walkBFS_cons]
    rfl
  refine ⟨?_, ?_, ?_, ?_⟩
  · rw [extract_python_symbols, if_neg hfqn]
    simp only [hw1, List.foldl_cons, List.foldl_nil]
    have hh : dictHas (dictSet db fqn ⟨SymKind.module, fqn, fpath⟩)
        (fqn ++ '.' :: fname) = true := by
      simp only [dictHas, dictGet?_dictSet,
        if_neg (self_ne_append_cons fqn fname '.')]
      exact hhas
    simp [hh]
  · rw [extract_python_symbols, if_neg hfqn]
    simp only [hw2, List.foldl_cons, List.foldl_nil]
    simp [dictGet?_dictSet]
  · rw [extract_python_symbols, if_neg hfqn]
    simp only [hw3, List.foldl_cons, List.foldl_nil]
    simp [dictGet?_dictSet]
  · rw [extract_python_symbols, if_neg hfqn]
    rw [walkBFS_nil]
    simp [dictGet?_dictSet]

/-- Witness for the amended C9: the database already holds `pkg.f`, the file
declares class `C` with method `m` and function `f`. -/
theorem claim_C9_first_wins_functions_only_witness :
    extract_python_symbols "fp.py".data "pkg".data
        [PyStmt.funcDef "f".data []]
        [("pkg.f".data, ⟨SymKind.cls, "q".data, "w.py".data⟩)]
      = dictSet [("pkg.f".data, ⟨SymKind.cls, "q".data, "w.py".data⟩)]
          "pkg".data ⟨SymKind.module, "pkg".data, "fp.py".data⟩
    ∧ dictGet? (extract_python_symbols "fp.py".data "pkg".data
          [PyStmt.classDef "C".data []]
          [("pkg.f".data, ⟨SymKind.cls, "q".data, "w.py".data⟩)])
        ("pkg".data ++ '.' :: "C".data)
      = some ⟨SymKind.cls, "pkg".data, "fp.py".data⟩
    ∧ dictGet? (extract_python_symbols "fp.py".data "pkg".data
          [PyStmt.classDef "C".data [PyStmt.funcDef "m".data []]]
          [("pkg.f".data, ⟨SymKind.cls, "q".data, "w.py".data⟩)])
        (("pkg".data ++ '.' :: "C".data) ++ '.' :: "m".data)
      = some ⟨SymKind.method, "pkg".data, "fp.py".data⟩
    ∧ dictGet? (extract_python_symbols "fp.py".data "pkg".data []
          [("pkg.f".data, ⟨SymKind.cls, "q".data, "w.py".data⟩)])
        "pkg".data
      = some ⟨SymKind.module, "pkg".data, "fp.py".data⟩ := by
  have h := claim_C9_first_wins_functions_only
    [("pkg.f".data, ⟨SymKind.cls, "q".data, "w.py".data⟩)]
    "pkg".data "f".data "C".data "m".data "fp.py".data
    (by decide) (by decide)
  exact ⟨h.1, h.2.1, h.2.2.1, h.2.2.2⟩

/-- A regex word character (`\w`), for the ASCII identifiers and dotted names
the analyzer handles: letters, digits, underscore.  A dot is NOT a word
character, which is what places `\b` boundaries at dots. -/
def isWordChar (c : Char) : Bool := c.isAlphanum || c = '_'

/-- Whether the character at index `i` (if any) is a word character. -/
def wordAtB (s : Str) (i : Nat) : Bool :=
  match s.drop i with
  | [] => false
  | c :: _ => isWordChar c

/-- The regex `\b` assertion at position `i`: exactly one of the adjacent
positions holds a word character. -/
def boundaryAt (s : Str) (i : Nat) : Bool :=
  (if i = 0 then false else wordAtB s (i - 1)) != wordAtB s i

/-- The search `re.search` over the regex built from a word boundary, the
escaped FQN, and a word boundary, for a literal pattern `pat` (`re.escape`
makes the FQN literal): some position matches the pattern with word
boundaries on both sides. -/
def reSearchWordLit (pat content : Str) : Bool :=
  (List.range (content.length + 1)).any fun i =>
    boundaryAt content i && List.isPrefixOf pat (content.drop i)
      && boundaryAt content (i + pat.length)

/-- `analyze_markdown_file_references(md_file_path, all_python_fqns,
python_symbols_db)` from `src/coderank.py` lines 235-267, over the
already-read document text.  For every known symbol FQN found as a whole word, the
owning module from the symbol table is collected (the `elif` branch of the source
re-testing `py_fqn in python_symbols_db` is unreachable once the `get`
returned nothing and every stored entry carries a `module_fqn`); the Python
set of referenced modules is modelled as a deduplicated insertion-ordered
list. -/
def analyze_markdown_file_references (content : Str) (all_python_fqns : List Str)
    (python_symbols_db : SymDb) : List Str :=
  all_python_fqns.foldl
    (fun referenced py_fqn =>
      if reSearchWordLit py_fqn content then
        match dictGet? python_symbols_db py_fqn with
        | some symbol_info =>
          if symbol_info.module_fqn ∈ referenced then referenced
          else referenced ++ [symbol_info.module_fqn]
        | none => referenced
      else referenced)
    []

-- Sanity checks of the word-boundary semantics: a dot separates words, an
-- adjoining word character does not, and a longer identifier is rejected.
example : reSearchWordLit "a.b".data "x.a.b".data = true := by decide
example : reSearchWordLit "a.b".data "xa.b".data = false := by decide
example : reSearchWordLit "pkg.mod.Class".data "see pkg.mod.ClassX here".data
    = false := by decide
example : reSearchWordLit "pkg.mod.Class".data "see pkg.mod.Class here".data
    = true := by decide

/-- C10: because the whole-token document search places word boundaries at
dots, a symbol FQN is also matched when it occurs as a dot-separated suffix
of a longer dotted path: on a document whose text is exactly `x.a.b` and a
symbol table in which FQN `a.b` is owned by module `amod`, document
projection reports `amod` as referenced by that document. -/
theorem claim_C10_dotted_suffix_match :
    reSearchWordLit "a.b".data "x.a.b".data = true
    ∧ analyze_markdown_file_references "x.a.b".data ["a.b".data]
        [("a.b".data, ⟨SymKind.cls, "amod".data, "f.py".data⟩)]
      = ["amod".data] := by
  refine ⟨by decide, by decide⟩
